import Mathlib

/-!
# go-gelf: verification of the GELF wire-level framing and failure handling

Shallow embedding of grafana/go-gelf's core: the UDP chunk framer
(src/gelf/chunk.go) together with spec-modelled components whose
implementation files are not part of the source snapshot (message codec,
compressor, UDP defragmenter, reconnecting TCP writer).  Bytes are
modelled as `Nat`, byte buffers as `List Nat`, strings as `String` or
`List Char`, and fallible operations return `Except GelfError`.
-/

namespace Gelf

/-- A byte of a payload buffer.  Values are ordinary naturals; nothing in
the framing logic depends on the 0..255 range. -/
abbrev Byte := Nat

/-- Error kinds of §7 of the spec. -/
inductive GelfError where
  | encodingError
  | decodingError
  | protocolError
  | connectionError
  | closedError
  | tooManyChunks
  deriving DecidableEq, Repr

/-! ## Chunking constants and numChunks (src/gelf/chunk.go) -/

/-- From src/gelf/chunk.go: `ChunkSize = 1420`. -/
def ChunkSize : Nat := 1420

/-- From src/gelf/chunk.go: `chunkedHeaderLen = 12`. -/
def chunkedHeaderLen : Nat := 12

/-- From src/gelf/chunk.go: `chunkedDataLen = ChunkSize - chunkedHeaderLen`. -/
def chunkedDataLen : Nat := ChunkSize - chunkedHeaderLen

/-- From src/gelf/chunk.go: `maxChunksCount = 128`. -/
def maxChunksCount : Nat := 128

/-- From src/gelf/chunk.go: `magicChunked = []byte{0x1e, 0x0f}`. -/
def magicChunked : List Byte := [0x1e, 0x0f]

/-- From src/gelf/chunk.go: `magicZlib = []byte{0x78}`. -/
def magicZlib : List Byte := [0x78]

/-- From src/gelf/chunk.go: `magicGzip = []byte{0x1f, 0x8b}`. -/
def magicGzip : List Byte := [0x1f, 0x8b]

/-- From src/gelf/chunk.go: `numChunks` returns the number of GELF chunks
necessary to transmit the given compressed buffer:
`if lenB <= ChunkSize { return 1 }; return len(b)/chunkedDataLen + 1`. -/
def numChunks (b : List Byte) : Nat :=
  if b.length ≤ ChunkSize then 1 else b.length / chunkedDataLen + 1

/-- Ceiling division on naturals, `⌈a / b⌉`. -/
def ceilDiv (a b : Nat) : Nat := (a + b - 1) / b

/-! ## UDP framer (spec-modelled, §4.3) -/

/-- Modelled from the spec: §4.3, one chunk datagram of the UDP framer.
2-byte magic `0x1e 0x0f`, 8-byte message id, 1-byte zero-based sequence
index, 1-byte total chunk count, followed by that chunk's payload slice
(the `i`-th `chunkedDataLen`-byte window of the compressed buffer). -/
def chunkDatagram (msgId : List Byte) (total : Nat) (b : List Byte) (i : Nat) : List Byte :=
  magicChunked ++ msgId ++ [i, total] ++ (b.drop (i * chunkedDataLen)).take chunkedDataLen

/-- Modelled from the spec: §4.3, the chunked-send path of the UDP framer
(the implementation file holding it is not in the source snapshot; only
`numChunks` is, and is used unchanged).  Fails with TooManyChunksError
when the piece count exceeds 128, sending nothing; otherwise produces one
datagram per chunk, indices `0..numChunks-1`. -/
def writeChunked (msgId : List Byte) (b : List Byte) :
    Except GelfError (List (List Byte)) :=
  if maxChunksCount < numChunks b then .error .tooManyChunks
  else .ok ((List.range (numChunks b)).map (chunkDatagram msgId (numChunks b) b))


/-! ## Compressor (spec-modelled, §4.2) -/

/-- Compression modes of §4.2, selected by writer configuration. -/
inductive CompressType where
  | none
  | gzip
  | zlib
  deriving DecidableEq, Repr

/-- Modelled from the spec: §4.2 Compressor, write side (the file calling
Go's compress/gzip and compress/zlib is not in the source snapshot, and
the encoders themselves are the Go standard library, external to this
repository).  Each compressed stream is modelled as the format's magic
header (gzip `0x1f 0x8b`, zlib `0x78 0x9c`) followed by the content
losslessly, keeping the spec-relevant structure: the leading bytes that
drive detection, and losslessness of the body.  Mode none emits the
payload unmodified. -/
def compress : CompressType → List Byte → List Byte
  | .none, x => x
  | .gzip, x => 0x1f :: 0x8b :: x
  | .zlib, x => 0x78 :: 0x9c :: x

/-- Modelled from the spec: §4.2 Compressor, read side.  Detection is
content-driven, not configuration-driven: a payload whose first two
bytes are `0x1f 0x8b` is decoded as gzip, one whose first byte is `0x78`
as zlib (both headers are two bytes), and anything else is treated as
uncompressed JSON and passed through. -/
def decompress (b : List Byte) : List Byte :=
  if b.take 2 = magicGzip then b.drop 2
  else if b.take 1 = magicZlib then b.drop 2
  else b

/-! ## Raw write: Short/Full extraction (spec-modelled, §4.5) -/

/-- Removes a single trailing newline from a raw input, modelled on lists
of characters. -/
def chompNewline (p : List Char) : List Char :=
  if p.getLast? = some (Char.ofNat 10) then p.dropLast else p

/-- Modelled from the spec: §4.5 `write(rawBytes)` builds the Short and
Full fields of the message it sends: the first line (after removing a
trailing newline, as the spec's example input "short\n" → Short "short"
requires) becomes Short; when the input spans multiple lines the whole
input becomes Full, otherwise Full is empty. -/
def rawToShortFull (p : List Char) : List Char × List Char :=
  let core := chompNewline p
  if Char.ofNat 10 ∈ core then (core.takeWhile (fun c => c ≠ Char.ofNat 10), p)
  else (core, [])

/-! ## Writer construction (spec-modelled, §6) -/

/-- A successfully dialled connection handle (the address it reaches). -/
structure Conn where
  addr : String
  deriving DecidableEq, Repr

/-- Modelled from the spec: the writers dial the collaborator-supplied
destination address (§6); dialling an empty address fails at the
transport layer (there is no host/port to contact), as pinned by
TestNewUDPWriter (src/unnamed/part_000) and TestNewTCPWriter
(src/gelf/tcpwriter_test.go). -/
def dial (addr : String) : Except GelfError Conn :=
  if addr = "" then .error .connectionError else .ok ⟨addr⟩

/-- From src/gelf/tcpwriter_test.go: `DefaultMaxReconnect` exists; the
spec fixes no number, only "a small positive default". -/
def DefaultMaxReconnect : Nat := 3

/-- From src/gelf/tcpwriter_test.go: `DefaultReconnectDelay` exists; the
spec fixes no number, only a fixed interval between attempts. -/
def DefaultReconnectDelay : Nat := 1

/-- UDP writer state: a connection plus its compression configuration. -/
structure UDPWriter where
  conn : Conn
  compressionType : CompressType
  deriving DecidableEq, Repr

/-- TCP writer state: a connection plus the reconnect configuration. -/
structure TCPWriter where
  conn : Conn
  maxReconnect : Nat
  reconnectDelay : Nat
  deriving DecidableEq, Repr

/-- Modelled from the spec: `NewUDPWriter(addr)` dials the address and,
on success, returns a writer holding the new connection; on failure no
writer (and so no connection state) is produced. -/
def NewUDPWriter (addr : String) : Except GelfError UDPWriter :=
  (dial addr).map (fun c => { conn := c, compressionType := CompressType.gzip })

/-- Modelled from the spec: `NewTCPWriter(addr)` dials the address and,
on success, returns a writer with the default reconnect configuration;
on failure no writer (and so no connection state) is produced. -/
def NewTCPWriter (addr : String) : Except GelfError TCPWriter :=
  (dial addr).map (fun c =>
    { conn := c, maxReconnect := DefaultMaxReconnect,
      reconnectDelay := DefaultReconnectDelay })

/-! ## UDP defragmenter (spec-modelled, §4.4) -/

/-- A parsed chunk: 8-byte message id (as a number), zero-based sequence
index, declared total chunk count, and the payload slice (§6 chunked
wire format after the 2-byte magic). -/
structure Chunk where
  id : Nat
  index : Nat
  total : Nat
  payload : List Byte
  deriving DecidableEq, Repr

/-- §3 ChunkSet: an array of up to 128 optional payload slices indexed by
sequence number, a declared total, a received count, and a first-seen
timestamp. -/
structure ChunkSet where
  slices : List (Option (List Byte))
  total : Nat
  received : Nat
  firstSeen : Nat
  deriving DecidableEq, Repr

/-- The defragmenter's table of in-progress reassemblies, keyed by
message id. -/
abbrev DefragState : Type := List (Nat × ChunkSet)

/-- Find the ChunkSet stored for a message id, if any. -/
def lookupSet (s : DefragState) (id : Nat) : Option ChunkSet :=
  (s.find? (fun e => e.1 == id)).map (fun e => e.2)

/-- Remove the entry for a message id. -/
def eraseSet (s : DefragState) (id : Nat) : DefragState :=
  s.filter (fun e => e.1 != id)

/-- Store (or replace) the entry for a message id. -/
def insertSet (s : DefragState) (id : Nat) (cs : ChunkSet) : DefragState :=
  (id, cs) :: eraseSet s id

/-- A ChunkSet created on the first chunk for an id: 128 empty slots,
the declared total, no chunk received yet, stamped with the current
time. -/
def freshSet (now total : Nat) : ChunkSet :=
  { slices := List.replicate 128 none, total := total, received := 0,
    firstSeen := now }

/-- Store a chunk's slice at its sequence index.  Storing into an
already-filled index is an idempotent overwrite: the slot is rewritten
and the received count is only bumped when the slot was empty. -/
def storeChunk (cs : ChunkSet) (c : Chunk) : ChunkSet :=
  { cs with
    slices := cs.slices.set c.index (some c.payload),
    received :=
      if (cs.slices.getD c.index none).isNone then cs.received + 1
      else cs.received }

/-- Concatenate the stored slices in index order `0..total-1`. -/
def assemble (cs : ChunkSet) : List Byte :=
  ((cs.slices.take cs.total).map (fun o => o.getD [])).flatten

/-- Modelled from the spec: §4.4 UDP defragmenter, one chunked datagram
(the reader implementation file is not in the source snapshot).  A
malformed header — declared total outside `[1,128]` or sequence index not
below the total — is a ProtocolError and the datagram is dropped.
Otherwise the ChunkSet for the message id is found or created; a declared
total that conflicts with the existing entry's total invalidates and
discards that ChunkSet; otherwise the slice is stored at its index, and
when the received count reaches the total the slices are concatenated in
index order, the ChunkSet is removed, and the id with the payload is
handed on. -/
def processChunk (now : Nat) (s : DefragState) (c : Chunk) :
    DefragState × Option (Nat × List Byte) :=
  if c.total < 1 ∨ maxChunksCount < c.total ∨ c.total ≤ c.index then (s, none)
  else
    match lookupSet s c.id with
    | Option.none =>
        let cs := storeChunk (freshSet now c.total) c
        if cs.received = cs.total then (s, some (c.id, assemble cs))
        else (insertSet s c.id cs, none)
    | Option.some cs0 =>
        if cs0.total ≠ c.total then (eraseSet s c.id, none)
        else
          let cs := storeChunk cs0 c
          if cs.received = cs.total then (eraseSet s c.id, some (c.id, assemble cs))
          else (insertSet s c.id cs, none)

/-- Feed a list of chunks through the defragmenter in order, collecting
the delivered `(id, payload)` pairs. -/
def feed (now : Nat) (s : DefragState) : List Chunk → DefragState × List (Nat × List Byte)
  | [] => (s, [])
  | c :: rest =>
      let step := processChunk now s c
      let r := feed now step.1 rest
      (r.1, step.2.toList ++ r.2)

/-- Modelled from the spec: §4.4 background reaper: scans the table and
evicts every ChunkSet whose age relative to the current time exceeds the
expiry threshold. -/
def reap (now expiry : Nat) (s : DefragState) : DefragState :=
  s.filter (fun e => now - e.2.firstSeen ≤ expiry)

/-- The chunks the framer produces for one message: indices
`0..total-1`, the slice at index `i` being `p i` (§4.3). -/
def mkChunks (idm total : Nat) (p : Nat → List Byte) : List Chunk :=
  (List.range total).map (fun i =>
    { id := idm, index := i, total := total, payload := p i })

/-- The canonical slice array holding `p j` exactly at the indices in
`seen`. -/
def canonSlices (p : Nat → List Byte) (seen : List Nat) : List (Option (List Byte)) :=
  (List.range 128).map (fun j => if j ∈ seen then some (p j) else none)

/-- The canonical ChunkSet reached after receiving exactly the indices
in `seen`. -/
def mkSet (now total : Nat) (p : Nat → List Byte) (seen : List Nat) : ChunkSet :=
  { slices := canonSlices p seen, total := total, received := seen.length,
    firstSeen := now }

/-- The table state after receiving exactly the indices in `seen` of one
message: empty until the first chunk arrives, then the single canonical
entry. -/
def stateOf (idm total now : Nat) (p : Nat → List Byte) (seen : List Nat) : DefragState :=
  if seen.isEmpty then [] else [(idm, mkSet now total p seen)]

/-- The per-id range/consistency invariant of §3: every stored ChunkSet
declares a total in `[1,128]` and has received fewer chunks than its
total (complete sets are consumed and removed at once). -/
def tableWF (s : DefragState) : Prop :=
  ∀ e ∈ s, 1 ≤ (e : Nat × ChunkSet).2.total ∧ e.2.total ≤ 128 ∧ e.2.received < e.2.total

/-- Table and chunk used to exhibit the invariants concretely. -/
def demoTable : DefragState := [(5, mkSet 0 2 (fun i => [i]) [0])]

/-- A well-formed chunk for the same id whose total conflicts with the
stored entry's. -/
def demoConflict : Chunk := ⟨5, 0, 3, []⟩

/-! ## TCP writer reconnect loop (spec-modelled, §4.5) -/

/-- Events observable during one `write` call on the TCP writer: the
initial write attempt on the current connection, a wait of the given
duration, a redial attempt with its outcome, and the one resend of the
pending message. -/
inductive WriteEvent where
  | write
  | sleep (d : Nat)
  | redial (ok : Bool)
  | resend
  deriving DecidableEq, Repr

/-- Outcome of one `write` call. -/
inductive WriteResult where
  | ok
  | connectionError
  deriving DecidableEq, Repr

/-- True exactly on redial events. -/
def isRedial : WriteEvent → Bool
  | .redial _ => true
  | _ => false

/-- True exactly on resend events. -/
def isResend : WriteEvent → Bool
  | .resend => true
  | _ => false

/-- Modelled from the spec: §4.5 reconnect loop with `budget` attempts
left, the k-th overall redial succeeding iff `dials k` (the network is an
oracle).  Each attempt waits the fixed delay and redials; a successful
redial resends the pending message once and the call returns success;
exhausting the budget surfaces ConnectionError. -/
def redialLoop (delay : Nat) (dials : Nat → Bool) :
    Nat → Nat → List WriteEvent × WriteResult
  | 0, _ => ([], .connectionError)
  | budget + 1, k =>
      if dials k then ([.sleep delay, .redial true, .resend], .ok)
      else
        let r := redialLoop delay dials budget (k + 1)
        (.sleep delay :: .redial false :: r.1, r.2)

/-- Modelled from the spec: §4.5 one `write` call on a connected TCP
writer.  The write is attempted on the current connection and the
transport reports success or failure (`firstWriteOk`); a peer that
already closed may still have the transport report success — connection
loss is detected lazily, only by a failing write.  On failure the bounded
redial-and-resend loop runs. -/
def tcpWrite (maxReconnect delay : Nat) (firstWriteOk : Bool) (dials : Nat → Bool) :
    List WriteEvent × WriteResult :=
  if firstWriteOk then ([.write], .ok)
  else
    let r := redialLoop delay dials maxReconnect 0
    (.write :: r.1, r.2)


/-! ## Message codec (spec-modelled, §4.1) -/

/-- JSON values (§3): string, number, boolean, null, nested array or
object.  Numbers are modelled as exact rationals; the spec's "JSON
numbers decode as double-precision floats" widening is therefore the
identity in this model. -/
inductive Json where
  | str : String → Json
  | num : Rat → Json
  | jbool : Bool → Json
  | jnull : Json
  | arr : List Json → Json
  | obj : List (String × Json) → Json

mutual

/-- Structural equality test on JSON values. -/
def Json.beq : Json → Json → Bool
  | .str a, .str b => a == b
  | .num a, .num b => a == b
  | .jbool a, .jbool b => a == b
  | .jnull, .jnull => true
  | .arr a, .arr b => jsonListBeq a b
  | .obj a, .obj b => jsonObjBeq a b
  | _, _ => false

/-- Elementwise equality of JSON arrays. -/
def jsonListBeq : List Json → List Json → Bool
  | [], [] => true
  | a :: as, b :: bs => Json.beq a b && jsonListBeq as bs
  | _, _ => false

/-- Entrywise equality of JSON objects. -/
def jsonObjBeq : List (String × Json) → List (String × Json) → Bool
  | [], [] => true
  | (k, v) :: as, (k2, v2) :: bs => k == k2 && Json.beq v v2 && jsonObjBeq as bs
  | _, _ => false

end

/-- §3 Message.  Extra is an ordered mapping from string keys to JSON
values; RawExtra — a pre-encoded JSON object in the implementation — is
modelled as an optional already-parsed JSON value, validity meaning it
is an object. -/
structure Message where
  version : String
  host : String
  short : String
  full : String
  timeUnix : Rat
  level : Int
  facility : String
  extra : List (String × Json)
  rawExtra : Option Json

/-- The reserved top-level keys of the GELF JSON schema (§3, §6). -/
def reservedKeys : List String :=
  ["version", "host", "short_message", "full_message", "timestamp",
   "level", "facility"]

/-- Whether a key is one of the reserved top-level keys. -/
def isReservedKey (k : String) : Bool :=
  k == "version" || k == "host" || k == "short_message" ||
  k == "full_message" || k == "timestamp" || k == "level" || k == "facility"

/-- Whether a key begins with an underscore (additional fields travel as
`_<extra-key>`, §6). -/
def underscored (k : String) : Bool :=
  match k.data with
  | [] => false
  | c :: _ => c == Char.ofNat 95

/-- The reserved fields of a message as JSON object entries (§6 schema). -/
def reservedAssoc (m : Message) : List (String × Json) :=
  [("version", Json.str m.version), ("host", Json.str m.host),
   ("short_message", Json.str m.short), ("full_message", Json.str m.full),
   ("timestamp", Json.num m.timeUnix), ("level", Json.num (m.level : Rat)),
   ("facility", Json.str m.facility)]

/-- The entries of RawExtra when it is a valid JSON object. -/
def rawFields (m : Message) : List (String × Json) :=
  match m.rawExtra with
  | some (.obj l) => l
  | _ => []

/-- RawExtra is absent or a JSON object. -/
def rawValid (m : Message) : Bool :=
  match m.rawExtra with
  | none => true
  | some (.obj _) => true
  | some _ => false

/-- First value stored under a key in an object's entry list. -/
def assocFind (l : List (String × Json)) (k : String) : Option Json :=
  (l.find? (fun e => e.1 == k)).map (fun e => e.2)

/-- Modelled from the spec: §4.1 `encode(Message) → bytes` (the codec
file is not in the source snapshot), with serialization to bytes
abstracted away: the emitted flat JSON object is returned as a value.
Fails with EncodingError if RawExtra is not a valid JSON object, or if an
Extra/RawExtra entry disagrees with a reserved key's value (§3: a
conflict must not silently clobber a reserved key); an entry that repeats
a reserved key with the identical value is dropped rather than
duplicated.  Otherwise the reserved fields are emitted first, then the
remaining Extra and RawExtra entries in order. -/
def encode (m : Message) : Except GelfError Json :=
  if !(rawValid m) then .error .encodingError
  else
    if (m.extra ++ rawFields m).any (fun kv =>
        match assocFind (reservedAssoc m) kv.1 with
        | some v => !(Json.beq kv.2 v)
        | none => false)
    then .error .encodingError
    else .ok (.obj (reservedAssoc m ++
      (m.extra ++ rawFields m).filter (fun kv => !(isReservedKey kv.1))))

/-- String value of a JSON value, with a default for other shapes. -/
def jsonStrD : Json → String → String
  | .str s, _ => s
  | _, d => d

/-- Numeric value of a JSON value, with a default. -/
def jsonNumD : Json → Rat → Rat
  | .num q, _ => q
  | _, d => d

/-- Severity level read from a JSON number the way the Go reader casts
its float64 to int (exact on the integral values encode emits). -/
def jsonLevelD : Json → Int → Int
  | .num q, _ => ⌊q⌋
  | _, d => d

/-- The all-default message decode starts from. -/
def emptyMessage : Message :=
  { version := "", host := "", short := "", full := "", timeUnix := 0,
    level := 0, facility := "", extra := [], rawExtra := none }

/-- Whether an object entry list carries a key. -/
def hasKey (l : List (String × Json)) (k : String) : Bool :=
  l.any (fun e => e.1 == k)

/-- One pass over the object entries: recognized keys set the reserved
fields; an unrecognized key becomes an Extra entry when it is
underscore-prefixed and is dropped otherwise. -/
def decodeGo : List (String × Json) → Message → Message
  | [], m => m
  | (k, v) :: rest, m =>
    if k = "version" then decodeGo rest { m with version := jsonStrD v m.version }
    else if k = "host" then decodeGo rest { m with host := jsonStrD v m.host }
    else if k = "short_message" then
      decodeGo rest { m with short := jsonStrD v m.short }
    else if k = "full_message" then
      decodeGo rest { m with full := jsonStrD v m.full }
    else if k = "timestamp" then
      decodeGo rest { m with timeUnix := jsonNumD v m.timeUnix }
    else if k = "level" then decodeGo rest { m with level := jsonLevelD v m.level }
    else if k = "facility" then
      decodeGo rest { m with facility := jsonStrD v m.facility }
    else if underscored k then decodeGo rest { m with extra := m.extra ++ [(k, v)] }
    else decodeGo rest m

/-- Modelled from the spec: §4.1 `decode(bytes) → Message` (the codec
file is not in the source snapshot), on the already-parsed JSON value.
Fails with DecodingError if the input is not a JSON object or misses
`host` or `short_message`.  Unknown top-level keys become Extra entries
when underscore-prefixed: §6's schema transmits additional fields as
`_<extra-key>`, and TestExtraData (src/unnamed/part_000) requires exactly
the underscore-prefixed extras of its round-tripped message to survive
(`require.Len(t, msg.Extra, 3)` against five non-reserved inputs). -/
def decode (j : Json) : Except GelfError Message :=
  match j with
  | .obj l =>
      if hasKey l "host" = true ∧ hasKey l "short_message" = true then
        .ok (decodeGo l emptyMessage)
      else .error .decodingError
  | _ => .error .decodingError

/-- The message of TestExtraData in miniature: one non-underscore Extra
key and one non-underscore RawExtra key. -/
def demoMessage : Message :=
  { version := "1.0", host := "fake-host", short := "quick", full := "",
    timeUnix := 0, level := 6, facility := "udpwriter_test",
    extra := [("C", Json.num 9)],
    rawExtra := some (Json.obj [("woo", Json.str "hoo")]) }

/-- `decode` after `encode`, composed. -/
def roundtrip (m : Message) : Except GelfError Message :=
  match encode m with
  | .ok j => decode j
  | .error e => .error e


end Gelf

namespace Gelf

/-! ## C1: chunk count -/

/-- C1 (counterexample): the claim says the chunk count equals
`ceil(L / 1408)` whenever `L > 1420`; at `L = 2816 = 2 * 1408` the code
returns `2816 / 1408 + 1 = 3` while `ceil(2816 / 1408) = 2`. -/
theorem numChunks_ceil_counterexample :
    1420 < (List.replicate 2816 (0 : Byte)).length ∧
    numChunks (List.replicate 2816 (0 : Byte)) = 3 ∧
    ceilDiv (List.replicate 2816 (0 : Byte)).length 1408 = 2 := by
  refine ⟨?_, ?_, ?_⟩
  · rw [List.length_replicate]
    norm_num
  · unfold numChunks
    rw [List.length_replicate]
    norm_num [ChunkSize, chunkedDataLen, chunkedHeaderLen]
  · rw [List.length_replicate]
    norm_num [ceilDiv]

/-- C1 (amended): for a payload of length `L`, `numChunks` returns 1 when
`L ≤ 1420`; when `L > 1420` it returns `L / 1408 + 1`, which equals
`ceil(L / 1408)` whenever 1408 does not divide `L` and `ceil(L / 1408) + 1`
when 1408 divides `L` exactly. -/
theorem numChunks_spec (b : List Byte) :
    (b.length ≤ 1420 → numChunks b = 1) ∧
    (1420 < b.length →
      numChunks b = ceilDiv b.length 1408 + (if 1408 ∣ b.length then 1 else 0)) := by
  constructor
  · intro h
    simp [numChunks, ChunkSize, h]
  · intro h
    have hnum : numChunks b = b.length / 1408 + 1 := by
      unfold numChunks
      rw [if_neg (by unfold ChunkSize; omega)]
      norm_num [chunkedDataLen, ChunkSize, chunkedHeaderLen]
    rw [hnum]
    unfold ceilDiv
    by_cases hd : (1408 : Nat) ∣ b.length
    · rw [if_pos hd]
      omega
    · rw [if_neg hd]
      omega

/-- C1 (witness): the amended statement applied to the 2816-byte payload. -/
theorem numChunks_spec_witness :
    numChunks (List.replicate 2816 (0 : Byte)) =
      ceilDiv (List.replicate 2816 (0 : Byte)).length 1408 +
        (if 1408 ∣ (List.replicate 2816 (0 : Byte)).length then 1 else 0) :=
  (numChunks_spec (List.replicate 2816 (0 : Byte))).2
    (by rw [List.length_replicate]; norm_num)

/-! ## C8: too many chunks -/

/-- C8: when the computed piece count of a compressed payload exceeds 128,
the UDP framer's chunked send fails with TooManyChunksError and produces
no datagram at all. -/
theorem writeChunked_tooManyChunks (msgId b : List Byte) (h : 128 < numChunks b) :
    writeChunked msgId b = .error .tooManyChunks ∧
      ∀ ds : List (List Byte), writeChunked msgId b ≠ .ok ds := by
  have hm : maxChunksCount < numChunks b := h
  refine ⟨?_, ?_⟩
  · simp [writeChunked, hm]
  · intro ds
    simp [writeChunked, hm]

/-- C8 (witness): a 180224-byte payload computes to 129 pieces and is
rejected with TooManyChunksError. -/
theorem writeChunked_tooManyChunks_witness :
    writeChunked [] (List.replicate 180224 (0 : Byte)) = .error .tooManyChunks ∧
      ∀ ds : List (List Byte),
        writeChunked [] (List.replicate 180224 (0 : Byte)) ≠ .ok ds :=
  writeChunked_tooManyChunks [] (List.replicate 180224 (0 : Byte))
    (by unfold numChunks
        rw [List.length_replicate]
        norm_num [ChunkSize, chunkedDataLen, chunkedHeaderLen])


/-! ## C3: compression round trip -/

/-- C3 (counterexample): with mode none, a payload whose first byte is
`0x78` is misdetected as zlib on the read side, so
`decompress (compress none x)` is not `x` for `x = [0x78]`. -/
theorem compress_roundtrip_counterexample :
    decompress (compress CompressType.none [0x78]) = [] ∧
    ([] : List Byte) ≠ [0x78] := by
  constructor
  · decide
  · decide

/-- C3 (amended): `decompress (compress mode x) = x` holds for every `x`
under gzip and zlib; under mode none it holds for every `x` that does not
begin with the gzip magic `0x1f 0x8b` or the zlib magic byte `0x78`
(a JSON payload, starting with a brace, never does). -/
theorem compress_decompress_spec :
    (∀ x : List Byte, decompress (compress CompressType.gzip x) = x) ∧
    (∀ x : List Byte, decompress (compress CompressType.zlib x) = x) ∧
    (∀ x : List Byte, x.take 2 ≠ magicGzip → x.take 1 ≠ magicZlib →
      decompress (compress CompressType.none x) = x) := by
  refine ⟨?_, ?_, ?_⟩
  · intro x
    simp [decompress, compress, magicGzip, magicZlib]
  · intro x
    simp [decompress, compress, magicGzip, magicZlib]
  · intro x h2 h1
    simp [decompress, compress, h2, h1]

/-- C3 (witness): the none-mode round trip at the JSON-shaped payload
`[0x7b]` (an opening brace). -/
theorem compress_decompress_spec_witness :
    decompress (compress CompressType.none [0x7b]) = [0x7b] :=
  compress_decompress_spec.2.2 [0x7b] (by decide) (by decide)

/-! ## C9: raw write Short/Full extraction -/

/-- C9: `write(rawBytes)` takes Short from the first line of the input
(one trailing newline removed), sets Full to the whole input exactly when
the input spans multiple lines and to the empty string otherwise, and in
particular maps "short\n" to Short "short", Full "". -/
theorem write_short_full (p : List Char) :
    (rawToShortFull p).1 = (chompNewline p).takeWhile (fun c => c ≠ Char.ofNat 10) ∧
    (Char.ofNat 10 ∈ chompNewline p → (rawToShortFull p).2 = p) ∧
    (Char.ofNat 10 ∉ chompNewline p → (rawToShortFull p).2 = []) ∧
    rawToShortFull "short\n".toList = ("short".toList, []) := by
  refine ⟨?_, ?_, ?_, by decide⟩
  · by_cases h : Char.ofNat 10 ∈ chompNewline p
    · simp [rawToShortFull, h]
    · simp only [rawToShortFull, h, if_neg, if_false]
      rw [List.takeWhile_eq_self_iff.mpr]
      intro a ha
      simp only [decide_eq_true_eq, ne_eq]
      intro hc
      exact h (hc ▸ ha)
  · intro h
    simp [rawToShortFull, h]
  · intro h
    simp [rawToShortFull, h]

/-- C9 (witness): the multi-line case at the input "a\nb". -/
theorem write_short_full_witness :
    (rawToShortFull "a\nb".toList).2 = "a\nb".toList :=
  (write_short_full "a\nb".toList).2.1 (by decide)

/-! ## C10: construction with an empty address -/

/-- C10: constructing a writer with an empty destination address fails:
`NewUDPWriter ""` and `NewTCPWriter ""` both return an error and hence
no writer value (no connection state) at all. -/
theorem newWriter_empty_addr_fails :
    NewUDPWriter "" = .error .connectionError ∧
    NewTCPWriter "" = .error .connectionError := by
  exact ⟨rfl, rfl⟩


/-! ## Defragmenter table lemmas -/

/-- Looking up in the empty table finds nothing. -/
theorem lookupSet_nil (idm : Nat) : lookupSet [] idm = none := rfl

/-- Looking up the singleton table's own id finds its ChunkSet. -/
theorem lookupSet_single_self (idm : Nat) (cs : ChunkSet) :
    lookupSet [(idm, cs)] idm = some cs := by
  simp [lookupSet, List.find?]

/-- Replacing the singleton table's own entry. -/
theorem insertSet_single (idm : Nat) (cs cs' : ChunkSet) :
    insertSet [(idm, cs)] idm cs' = [(idm, cs')] := by
  simp [insertSet, eraseSet, List.filter]

/-- Erasing the singleton table's own entry empties it. -/
theorem eraseSet_single_self (idm : Nat) (cs : ChunkSet) :
    eraseSet [(idm, cs)] idm = [] := by
  simp [eraseSet, List.filter]

/-- Erasing one id does not change what any other id finds. -/
theorem find_eraseSet_ne (s : DefragState) (idm id' : Nat) (h : id' ≠ idm) :
    (eraseSet s idm).find? (fun e => e.1 == id') = s.find? (fun e => e.1 == id') := by
  induction s with
  | nil => rfl
  | cons a t ih =>
    by_cases ha : a.1 = idm
    · have h1 : (a.1 != idm) = false := by simp [ha]
      have h2 : (a.1 == id') = false := by
        have : ¬ a.1 = id' := by omega
        simp [this]
      rw [eraseSet, List.filter_cons, h1]
      rw [List.find?_cons_of_neg _ (by simp [h2])]
      exact ih
    · have h1 : (a.1 != idm) = true := by simp [ha]
      rw [eraseSet, List.filter_cons, h1]
      simp only [if_true]
      by_cases hb : a.1 = id'
      · rw [List.find?_cons_of_pos _ (by simp [hb]), List.find?_cons_of_pos _ (by simp [hb])]
      · rw [List.find?_cons_of_neg _ (by simp [hb]), List.find?_cons_of_neg _ (by simp [hb])]
        exact ih

/-- `lookupSet` version of `find_eraseSet_ne`. -/
theorem lookupSet_eraseSet_ne (s : DefragState) (idm id' : Nat) (h : id' ≠ idm) :
    lookupSet (eraseSet s idm) id' = lookupSet s id' := by
  rw [lookupSet, lookupSet, find_eraseSet_ne s idm id' h]

/-- Inserting under one id does not change what any other id finds. -/
theorem lookupSet_insertSet_ne (s : DefragState) (idm id' : Nat) (cs : ChunkSet)
    (h : id' ≠ idm) :
    lookupSet (insertSet s idm cs) id' = lookupSet s id' := by
  rw [insertSet, lookupSet, List.find?_cons_of_neg _ (by simp; omega)]
  rw [← lookupSet, lookupSet_eraseSet_ne s idm id' h]

/-- After erasing an id, looking it up finds nothing. -/
theorem lookupSet_eraseSet_self (s : DefragState) (idm : Nat) :
    lookupSet (eraseSet s idm) idm = none := by
  rw [lookupSet]
  have h : (eraseSet s idm).find? (fun e => e.1 == idm) = none := by
    rw [List.find?_eq_none]
    intro e he
    rw [eraseSet, List.mem_filter] at he
    simp only [bne_iff_ne, ne_eq] at he
    simp [he.2]
  rw [h]
  rfl

/-- A ChunkSet found in the table is one of its entries. -/
theorem mem_of_lookupSet (s : DefragState) (idm : Nat) (cs : ChunkSet)
    (h : lookupSet s idm = some cs) : (idm, cs) ∈ s := by
  rw [lookupSet] at h
  cases hf : s.find? (fun e => e.1 == idm) with
  | none => rw [hf] at h; cases h
  | some e =>
    rw [hf] at h
    have hm := List.mem_of_find?_eq_some hf
    have hp := List.find?_some hf
    simp only [beq_iff_eq] at hp
    cases h
    cases e
    cases hp
    exact hm

/-- An id absent from the key list finds nothing. -/
theorem lookupSet_eq_none_of_not_mem (s : DefragState) (idm : Nat)
    (h : idm ∉ s.map Prod.fst) : lookupSet s idm = none := by
  rw [lookupSet]
  have hf : s.find? (fun e => e.1 == idm) = none := by
    rw [List.find?_eq_none]
    intro e he
    simp only [beq_iff_eq]
    intro hh
    exact h (hh ▸ List.mem_map_of_mem Prod.fst he)
  rw [hf]
  rfl

/-! ## Canonical ChunkSet lemmas -/

/-- `getD` on a replicate-none list is always `none`. -/
theorem getD_replicate_none {α : Type} (n i : Nat) :
    (List.replicate n (none : Option α)).getD i none = none := by
  rw [List.getD_eq_getElem?_getD, List.getElem?_replicate]
  split <;> rfl

/-- The canonical slice array with no index received is all-empty. -/
theorem canonSlices_nil (p : Nat → List Byte) :
    canonSlices p [] = List.replicate 128 none := by
  have h : (fun j => if j ∈ ([] : List Nat) then some (p j) else none)
      = fun _ : Nat => (none : Option (List Byte)) := by
    funext j
    simp
  rw [canonSlices, h, List.map_const', List.length_range]

/-- A fresh ChunkSet is the canonical set with nothing received. -/
theorem freshSet_eq_mkSet_nil (now total : Nat) (p : Nat → List Byte) :
    freshSet now total = mkSet now total p [] := by
  rw [freshSet, mkSet, canonSlices_nil]
  rfl

/-- Reading slot `i` of the canonical slice array. -/
theorem getD_canonSlices (p : Nat → List Byte) (seen : List Nat) {i : Nat}
    (h : i < 128) :
    (canonSlices p seen).getD i none = if i ∈ seen then some (p i) else none := by
  rw [canonSlices, List.getD_eq_getElem?_getD, List.getElem?_map,
    List.getElem?_range h]
  rfl

/-- Writing slice `i` into the canonical slice array marks `i` as seen. -/
theorem set_canonSlices (p : Nat → List Byte) (seen : List Nat) {i : Nat}
    (h : i < 128) :
    (canonSlices p seen).set i (some (p i)) = canonSlices p (i :: seen) := by
  apply List.ext_getElem
  · simp [canonSlices]
  · intro j h1 h2
    simp only [canonSlices, List.length_map, List.length_range] at h2
    rw [List.getElem_set]
    simp only [canonSlices, List.getElem_map, List.getElem_range]
    by_cases hij : i = j
    · subst hij
      simp
    · have hji : ¬ (j = i) := fun hh => hij hh.symm
      rw [if_neg hij]
      simp [List.mem_cons, hji]

/-- Storing the chunk for a not-yet-seen index turns the canonical set
for `seen` into the canonical set for `i :: seen`. -/
theorem storeChunk_mkSet (idm now total : Nat) (p : Nat → List Byte)
    (seen : List Nat) {i : Nat} (hi : i < total) (h128 : total ≤ 128)
    (hnew : i ∉ seen) :
    storeChunk (mkSet now total p seen)
        { id := idm, index := i, total := total, payload := p i } =
      mkSet now total p (i :: seen) := by
  have hi128 : i < 128 := lt_of_lt_of_le hi h128
  rw [storeChunk]
  simp only [mkSet, ChunkSet.mk.injEq]
  refine ⟨set_canonSlices p seen hi128, trivial, ?_, trivial⟩
  rw [getD_canonSlices p seen hi128, if_neg hnew]
  simp

/-- A nodup list of naturals below `total` with `total` elements covers
every index below `total`. -/
theorem mem_of_covering (seen : List Nat) (total : Nat) (hnd : seen.Nodup)
    (hlt : ∀ i ∈ seen, i < total) (hlen : seen.length = total) {j : Nat}
    (hj : j < total) : j ∈ seen := by
  have hsub : seen.toFinset ⊆ Finset.range total := by
    intro a ha
    rw [List.mem_toFinset] at ha
    exact Finset.mem_range.mpr (hlt a ha)
  have hcard : (Finset.range total).card ≤ seen.toFinset.card := by
    rw [List.toFinset_card_of_nodup hnd, hlen, Finset.card_range]
  have heq : seen.toFinset = Finset.range total :=
    Finset.eq_of_subset_of_card_le hsub hcard
  have hm : j ∈ seen.toFinset := heq ▸ Finset.mem_range.mpr hj
  exact List.mem_toFinset.mp hm

/-- Assembling a canonical set whose seen indices cover `0..total-1`
yields the slices concatenated in index order. -/
theorem assemble_full (now total : Nat) (p : Nat → List Byte) (seen : List Nat)
    (hnd : seen.Nodup) (hlt : ∀ i ∈ seen, i < total) (hlen : seen.length = total)
    (h128 : total ≤ 128) :
    assemble (mkSet now total p seen) = ((List.range total).map p).flatten := by
  rw [assemble]
  simp only [mkSet, canonSlices]
  rw [← List.map_take, List.take_range, Nat.min_eq_left h128, List.map_map]
  congr 1
  apply List.map_congr_left
  intro j hj
  rw [List.mem_range] at hj
  have hm : j ∈ seen := mem_of_covering seen total hnd hlt hlen hj
  simp [hm]

/-! ## processChunk case lemmas -/

/-- A malformed header (total out of `[1,128]` or index not below total)
drops the datagram. -/
theorem processChunk_malformed (now : Nat) (s : DefragState) (c : Chunk)
    (hg : c.total < 1 ∨ maxChunksCount < c.total ∨ c.total ≤ c.index) :
    processChunk now s c = (s, none) := by
  unfold processChunk
  rw [if_pos hg]

/-- A well-formed chunk for an unknown id creates the ChunkSet (or
delivers at once when one chunk is the whole message). -/
theorem processChunk_create (now : Nat) (s : DefragState) (c : Chunk)
    (hg : ¬ (c.total < 1 ∨ maxChunksCount < c.total ∨ c.total ≤ c.index))
    (hlk : lookupSet s c.id = none) :
    processChunk now s c =
      (if (storeChunk (freshSet now c.total) c).received = c.total
       then (s, some (c.id, assemble (storeChunk (freshSet now c.total) c)))
       else (insertSet s c.id (storeChunk (freshSet now c.total) c), none)) := by
  unfold processChunk
  rw [if_neg hg, hlk]
  rfl

/-- A well-formed chunk whose total agrees with the existing entry is
stored, completing the set when it fills the last missing index. -/
theorem processChunk_found (now : Nat) (s : DefragState) (c : Chunk)
    (cs0 : ChunkSet)
    (hg : ¬ (c.total < 1 ∨ maxChunksCount < c.total ∨ c.total ≤ c.index))
    (hlk : lookupSet s c.id = some cs0) (htot : cs0.total = c.total) :
    processChunk now s c =
      (if (storeChunk cs0 c).received = cs0.total
       then (eraseSet s c.id, some (c.id, assemble (storeChunk cs0 c)))
       else (insertSet s c.id (storeChunk cs0 c), none)) := by
  unfold processChunk
  rw [if_neg hg, hlk]
  show (if cs0.total ≠ c.total then (eraseSet s c.id, none)
        else
          let cs := storeChunk cs0 c
          if cs.received = cs.total then (eraseSet s c.id, some (c.id, assemble cs))
          else (insertSet s c.id cs, none)) = _
  rw [if_neg (fun hne => hne htot)]
  rfl

/-- A well-formed chunk whose declared total conflicts with the existing
entry's total invalidates and discards that ChunkSet. -/
theorem processChunk_conflict (now : Nat) (s : DefragState) (c : Chunk)
    (cs0 : ChunkSet)
    (hg : ¬ (c.total < 1 ∨ maxChunksCount < c.total ∨ c.total ≤ c.index))
    (hlk : lookupSet s c.id = some cs0) (htot : cs0.total ≠ c.total) :
    processChunk now s c = (eraseSet s c.id, none) := by
  unfold processChunk
  rw [if_neg hg, hlk]
  show (if cs0.total ≠ c.total then (eraseSet s c.id, none)
        else
          let cs := storeChunk cs0 c
          if cs.received = cs.total then (eraseSet s c.id, some (c.id, assemble cs))
          else (insertSet s c.id cs, none)) = _
  rw [if_pos htot]

/-! ## Single-message runs of the defragmenter -/

/-- Feeding the not-yet-seen chunks of one framed message in any order
from the canonical mid-reassembly state completes the reassembly: the
table ends empty and exactly the in-index-order concatenation is
delivered once. -/
theorem feed_single_message (idm total now : Nat) (p : Nat → List Byte)
    (h1 : 1 ≤ total) (h128 : total ≤ 128) :
    ∀ cs : List Chunk, ∀ seen : List Nat,
      (∀ c ∈ cs, c.id = idm ∧ c.total = total ∧ c.index < total ∧
        c.payload = p c.index) →
      (∀ i ∈ seen, i < total) →
      (seen ++ cs.map Chunk.index).Nodup →
      seen.length + cs.length = total →
      cs ≠ [] →
      feed now (stateOf idm total now p seen) cs =
        ([], [(idm, ((List.range total).map p).flatten)]) := by
  intro cs
  induction cs with
  | nil =>
    intro seen _ _ _ _ hne
    exact absurd rfl hne
  | cons c rest ih =>
    intro seen hall hseen hnd hlen _
    obtain ⟨cid, cix, ctot, cpay⟩ := c
    obtain ⟨hcid, hctot, hcidx, hcpay⟩ := hall _ (List.mem_cons_self _ _)
    simp only at hcid hctot hcidx hcpay
    symm at hcid hctot
    subst hcid
    subst hctot
    subst hcpay
    simp only [List.map_cons] at hnd
    rw [List.nodup_append] at hnd
    obtain ⟨hndSeen, hndRest, hdisj⟩ := hnd
    have hinew : cix ∉ seen := fun hmem => hdisj hmem (by simp)
    have hguard : ¬ ((⟨idm, cix, total, p cix⟩ : Chunk).total < 1 ∨
        maxChunksCount < (⟨idm, cix, total, p cix⟩ : Chunk).total ∨
        (⟨idm, cix, total, p cix⟩ : Chunk).total ≤
          (⟨idm, cix, total, p cix⟩ : Chunk).index) := by
      simp only [maxChunksCount]
      omega
    have htail : ∀ c ∈ rest, Chunk.id c = idm ∧ Chunk.total c = total ∧
        Chunk.index c < total ∧ Chunk.payload c = p (Chunk.index c) :=
      fun c hc => hall c (List.mem_cons_of_mem _ hc)
    simp only [List.length_cons] at hlen
    by_cases hseenE : seen = []
    · subst hseenE
      simp only [List.length_nil] at hlen
      rw [show stateOf idm total now p [] = [] from rfl]
      simp only [feed]
      rw [processChunk_create now [] _ hguard rfl]
      rw [freshSet_eq_mkSet_nil now total p,
        storeChunk_mkSet idm now total p [] hcidx h128 (List.not_mem_nil cix)]
      by_cases hone : total = 1
      · have hrlen : rest.length = 0 := by omega
        have hrest := List.length_eq_zero.mp hrlen
        subst hrest
        rw [if_pos (by simp [mkSet, hone])]
        simp only [feed, Option.toList_some, List.nil_append]
        rw [assemble_full now total p [cix] (by simp)
          (by intro i hi; simp at hi; omega) (by simp [hone]) h128]
        simp
      · rw [if_neg (by simp [mkSet]; omega)]
        rw [show insertSet [] idm (mkSet now total p [cix]) =
          stateOf idm total now p [cix] from rfl]
        rw [ih [cix] htail (by intro i hi; simp at hi; omega)
          (by simpa using hndRest)
          (by simp only [List.length_singleton]; omega)
          (by intro hh; rw [hh] at hlen; simp at hlen; omega)]
        simp
    · have hstate : stateOf idm total now p seen = [(idm, mkSet now total p seen)] := by
        rw [stateOf, if_neg (by simp [hseenE])]
      rw [hstate]
      simp only [feed]
      rw [processChunk_found now [(idm, mkSet now total p seen)] _
        (mkSet now total p seen) hguard (lookupSet_single_self idm _) rfl]
      rw [storeChunk_mkSet idm now total p seen hcidx h128 hinew]
      by_cases hfull : seen.length + 1 = total
      · have hrlen : rest.length = 0 := by omega
        have hrest := List.length_eq_zero.mp hrlen
        subst hrest
        rw [if_pos (by simp [mkSet]; omega)]
        rw [eraseSet_single_self]
        simp only [feed, Option.toList_some, List.nil_append]
        rw [assemble_full now total p (cix :: seen)
          (List.nodup_cons.mpr ⟨hinew, hndSeen⟩)
          (by
            intro i hi
            rcases List.mem_cons.mp hi with hh | hh
            · omega
            · exact hseen i hh)
          (by simp only [List.length_cons]; omega) h128]
        simp
      · rw [if_neg (by simp [mkSet]; omega)]
        rw [insertSet_single]
        rw [show [(idm, mkSet now total p (cix :: seen))] =
          stateOf idm total now p (cix :: seen) from rfl]
        rw [ih (cix :: seen) htail
          (by
            intro i hi
            rcases List.mem_cons.mp hi with hh | hh
            · omega
            · exact hseen i hh)
          (by
            have hcr := List.nodup_cons.mp hndRest
            rw [List.cons_append, List.nodup_cons]
            constructor
            · intro hmem
              rcases List.mem_append.mp hmem with hh | hh
              · exact hinew hh
              · exact hcr.1 hh
            · rw [List.nodup_append]
              exact ⟨hndSeen, hcr.2,
                fun a ha hb => hdisj ha (List.mem_cons_of_mem _ hb)⟩)
          (by simp only [List.length_cons]; omega)
          (by intro hh; rw [hh] at hlen; simp at hlen; omega)]
        simp

/-- Processing a chunk never changes the stored entry of any other
message id. -/
theorem processChunk_other_id (now : Nat) (s : DefragState) (c : Chunk)
    (id' : Nat) (h : id' ≠ c.id) :
    lookupSet ((processChunk now s c).1) id' = lookupSet s id' := by
  unfold processChunk
  split
  · rfl
  · split
    · dsimp only
      split
      · rfl
      · exact lookupSet_insertSet_ne s c.id id' _ h
    · split
      · exact lookupSet_eraseSet_ne s c.id id' h
      · dsimp only
        split
        · exact lookupSet_eraseSet_ne s c.id id' h
        · exact lookupSet_insertSet_ne s c.id id' _ h

/-- The index projection of the framer's chunk list. -/
theorem mkChunks_map_index (idm total : Nat) (p : Nat → List Byte) :
    (mkChunks idm total p).map Chunk.index = List.range total := by
  have hcomp : (Chunk.index ∘ fun i : Nat =>
      (⟨idm, i, total, p i⟩ : Chunk)) = fun i : Nat => i := rfl
  rw [mkChunks, List.map_map, hcomp, List.map_id']

/-- Any run that feeds a permutation of one message's chunks into the
empty table delivers exactly the in-order concatenation and ends with an
empty table. -/
theorem feed_perm_run (idm total now : Nat) (p : Nat → List Byte)
    (h1 : 1 ≤ total) (h128 : total ≤ 128) (l : List Chunk)
    (hl : l.Perm (mkChunks idm total p)) :
    feed now [] l = ([], [(idm, ((List.range total).map p).flatten)]) := by
  have hall : ∀ c ∈ l, c.id = idm ∧ c.total = total ∧ c.index < total ∧
      c.payload = p c.index := by
    intro c hc
    have hcm : c ∈ mkChunks idm total p := hl.subset hc
    rw [mkChunks, List.mem_map] at hcm
    obtain ⟨i, hi, hci⟩ := hcm
    rw [List.mem_range] at hi
    cases hci
    exact ⟨rfl, rfl, hi, rfl⟩
  have hnd : ([] ++ l.map Chunk.index).Nodup := by
    rw [List.nil_append]
    have hpm : (l.map Chunk.index).Perm (List.range total) := by
      rw [← mkChunks_map_index idm total p]
      exact hl.map _
    exact hpm.nodup_iff.mpr (List.nodup_range _)
  have hlenl : l.length = total := by
    have hh := hl.length_eq
    rw [mkChunks, List.length_map, List.length_range] at hh
    exact hh
  have hne : l ≠ [] := by
    intro hh
    rw [hh] at hlenl
    simp at hlenl
    omega
  have hmain := feed_single_message idm total now p h1 h128 l [] hall
    (by intro i hi; cases hi) hnd (by simpa using hlenl) hne
  rw [show stateOf idm total now p [] = [] from rfl] at hmain
  exact hmain

/-- C4: feeding the defragmenter one framed message's chunks in any
permutation yields the same delivered payload as feeding them in index
order, namely the in-order concatenation of the slices; and processing a
chunk never affects the reassembly state of a different message id. -/
theorem reassembly_order_independent (idm total now : Nat) (p : Nat → List Byte)
    (perm : List Chunk) (h1 : 1 ≤ total) (h128 : total ≤ 128)
    (hp : perm.Perm (mkChunks idm total p)) :
    (feed now [] perm).2 = (feed now [] (mkChunks idm total p)).2 ∧
    (feed now [] perm).2 = [(idm, ((List.range total).map p).flatten)] ∧
    (∀ (s : DefragState) (c : Chunk) (id' : Nat), id' ≠ c.id →
      lookupSet ((processChunk now s c).1) id' = lookupSet s id') := by
  refine ⟨?_, ?_, fun s c id' h => processChunk_other_id now s c id' h⟩
  · rw [feed_perm_run idm total now p h1 h128 perm hp,
      feed_perm_run idm total now p h1 h128 (mkChunks idm total p) (List.Perm.refl _)]
  · rw [feed_perm_run idm total now p h1 h128 perm hp]

/-- C4 (witness): a two-chunk message delivered in reversed order. -/
theorem reassembly_order_independent_witness :
    (feed 0 [] [(⟨7, 1, 2, [1, 1]⟩ : Chunk), ⟨7, 0, 2, [0, 0]⟩]).2 =
        (feed 0 [] (mkChunks 7 2 (fun i => [i, i]))).2 ∧
    (feed 0 [] [(⟨7, 1, 2, [1, 1]⟩ : Chunk), ⟨7, 0, 2, [0, 0]⟩]).2 =
        [(7, ((List.range 2).map (fun i => [i, i])).flatten)] ∧
    (∀ (s : DefragState) (c : Chunk) (id' : Nat), id' ≠ c.id →
      lookupSet ((processChunk 0 s c).1) id' = lookupSet s id') :=
  reassembly_order_independent 7 2 0 (fun i => [i, i])
    [⟨7, 1, 2, [1, 1]⟩, ⟨7, 0, 2, [0, 0]⟩] (by decide) (by decide) (by decide)

/-- The reaper removes an expired entry, and (with unique table keys) no
entry for that id survives. -/
theorem lookupSet_reap_expired (now expiry : Nat) :
    ∀ s : DefragState, (s.map Prod.fst).Nodup →
      ∀ idd cs, lookupSet s idd = some cs → expiry < now - cs.firstSeen →
      lookupSet (reap now expiry s) idd = none := by
  intro s
  induction s with
  | nil =>
    intro _ idd cs hlk
    simp [lookupSet] at hlk
  | cons a t ih =>
    intro hnd idd cs hlk hold
    rw [List.map_cons, List.nodup_cons] at hnd
    obtain ⟨hna, hndt⟩ := hnd
    by_cases ha : a.1 = idd
    · have hfind : lookupSet (a :: t) idd = some a.2 := by
        rw [lookupSet, List.find?_cons_of_pos _ (by simp [ha])]
        rfl
      have hacs : a.2 = cs := by
        rw [hfind] at hlk
        exact Option.some.injEq _ _ ▸ hlk
      rw [reap, List.filter_cons, if_neg (by simp [hacs]; omega)]
      apply lookupSet_eq_none_of_not_mem
      intro hmem
      rw [List.mem_map] at hmem
      obtain ⟨e, he, hefst⟩ := hmem
      have het : e ∈ t := List.mem_of_mem_filter he
      exact (ha ▸ hna) (hefst ▸ List.mem_map_of_mem Prod.fst het)
    · have hlk' : lookupSet t idd = some cs := by
        rw [lookupSet, List.find?_cons_of_neg _ (by simp [ha])] at hlk
        exact hlk
      rw [reap, List.filter_cons]
      by_cases hcond : now - a.2.firstSeen ≤ expiry
      · rw [if_pos (by simp [hcond])]
        rw [lookupSet, List.find?_cons_of_neg _ (by simp [ha])]
        exact ih hndt idd cs hlk' hold
      · rw [if_neg (by simp [hcond])]
        exact ih hndt idd cs hlk' hold

/-- C6: every stored ChunkSet keeps a declared total in `[1,128]` (with
received strictly below it, complete sets being consumed at once), this
is preserved by processing any datagram; and a well-formed chunk whose
declared total conflicts with the stored entry's total invalidates and
discards exactly that ChunkSet while every other id's entry is
unchanged. -/
theorem chunkset_invariants (now : Nat) (s : DefragState) (c : Chunk) :
    (tableWF s → tableWF ((processChunk now s c).1)) ∧
    (∀ cs0 : ChunkSet, lookupSet s c.id = some cs0 → cs0.total ≠ c.total →
      ¬ (c.total < 1 ∨ maxChunksCount < c.total ∨ c.total ≤ c.index) →
      processChunk now s c = (eraseSet s c.id, none) ∧
      lookupSet ((processChunk now s c).1) c.id = none ∧
      (∀ id', id' ≠ c.id →
        lookupSet ((processChunk now s c).1) id' = lookupSet s id')) := by
  constructor
  · intro hwf
    unfold tableWF at hwf ⊢
    unfold processChunk
    split
    · exact hwf
    · rename_i hguard
      split
      · dsimp only
        split
        · exact hwf
        · rename_i hrec
          intro e he
          simp only [insertSet, List.mem_cons] at he
          rcases he with he1 | he2
          · have htot : (storeChunk (freshSet now c.total) c).total = c.total := rfl
            have hrcv : (storeChunk (freshSet now c.total) c).received = 1 := by
              simp only [storeChunk, freshSet, getD_replicate_none]
              rfl
            rw [htot, hrcv] at hrec
            simp only [maxChunksCount] at hguard
            subst he1
            simp only [htot, hrcv]
            omega
          · exact hwf e (List.mem_of_mem_filter he2)
      · rename_i cs0 heq
        split
        · intro e he
          exact hwf e (List.mem_of_mem_filter he)
        · dsimp only
          split
          · intro e he
            exact hwf e (List.mem_of_mem_filter he)
          · rename_i hrec
            intro e he
            simp only [insertSet, List.mem_cons] at he
            obtain ⟨hwf1, hwf2, hwf3⟩ := hwf _ (mem_of_lookupSet s c.id cs0 heq)
            dsimp only at hwf1 hwf2 hwf3
            rcases he with he1 | he2
            · have htot : (storeChunk cs0 c).total = cs0.total := rfl
              have hrcv : (storeChunk cs0 c).received ≤ cs0.received + 1 := by
                simp only [storeChunk]
                split <;> omega
              rw [htot] at hrec
              subst he1
              dsimp only
              simp only [htot]
              omega
            · exact hwf e (List.mem_of_mem_filter he2)
  · intro cs0 heq hne hguard
    have hp := processChunk_conflict now s c cs0 hguard heq hne
    refine ⟨hp, ?_, ?_⟩
    · rw [hp]
      exact lookupSet_eraseSet_self s c.id
    · intro id' hid
      exact processChunk_other_id now s c id' hid

/-- C6 (witness): the invariants applied to a one-entry table and a
conflicting chunk. -/
theorem chunkset_invariants_witness :
    tableWF ((processChunk 0 demoTable demoConflict).1) ∧
    (processChunk 0 demoTable demoConflict =
        (eraseSet demoTable demoConflict.id, none) ∧
      lookupSet ((processChunk 0 demoTable demoConflict).1) demoConflict.id = none ∧
      (∀ id', id' ≠ demoConflict.id →
        lookupSet ((processChunk 0 demoTable demoConflict).1) id' =
          lookupSet demoTable id')) :=
  ⟨(chunkset_invariants 0 demoTable demoConflict).1
     (by unfold tableWF; decide),
   (chunkset_invariants 0 demoTable demoConflict).2 (mkSet 0 2 (fun i => [i]) [0])
     (by decide) (by decide) (by decide)⟩

/-- C7: a delivery happens only when the received count reaches the
declared total — an id whose ChunkSet is missing any chunk is never
delivered — and the reaper evicts a ChunkSet whose age exceeds the expiry
threshold, after which its id finds nothing in the table. -/
theorem incomplete_never_delivered_and_reaped (now : Nat) (s : DefragState)
    (c : Chunk) :
    (∀ idd pl, (processChunk now s c).2 = some (idd, pl) →
      idd = c.id ∧
      ((lookupSet s c.id = none ∧ c.total = 1) ∨
        (∃ cs0, lookupSet s c.id = some cs0 ∧ cs0.total = c.total ∧
          (storeChunk cs0 c).received = c.total))) ∧
    (∀ expiry idd cs, (s.map Prod.fst).Nodup →
      lookupSet s idd = some cs → expiry < now - cs.firstSeen →
      lookupSet (reap now expiry s) idd = none) := by
  constructor
  · intro idd pl hdel
    unfold processChunk at hdel
    split at hdel
    · simp at hdel
    · rename_i hguard
      split at hdel
      · rename_i heq
        dsimp only at hdel
        split at hdel
        · rename_i hcomp
          simp only [Prod.mk.injEq, Option.some.injEq] at hdel
          obtain ⟨hdid, -⟩ := hdel
          have hrcv : (storeChunk (freshSet now c.total) c).received = 1 := by
            simp only [storeChunk, freshSet, getD_replicate_none]
            rfl
          have htot : (storeChunk (freshSet now c.total) c).total = c.total := rfl
          rw [hrcv, htot] at hcomp
          exact ⟨hdid.symm, Or.inl ⟨heq, hcomp.symm⟩⟩
        · simp at hdel
      · rename_i cs0 heq
        split at hdel
        · simp at hdel
        · dsimp only at hdel
          split at hdel
          · rename_i hcomp
            rename_i hnc
            simp only [Prod.mk.injEq, Option.some.injEq] at hdel
            obtain ⟨hdid, -⟩ := hdel
            have htoteq : cs0.total = c.total := not_ne_iff.mp hnc
            have htot : (storeChunk cs0 c).total = cs0.total := rfl
            rw [htot] at hcomp
            exact ⟨hdid.symm, Or.inr ⟨cs0, heq, htoteq, htoteq ▸ hcomp⟩⟩
          · simp at hdel
  · intro expiry idd cs hnd hlk hold
    exact lookupSet_reap_expired now expiry s hnd idd cs hlk hold

/-- C7 (witness): a one-chunk message delivers only because its count
equals its total, and an expired two-chunk ChunkSet is reaped. -/
theorem incomplete_never_delivered_and_reaped_witness :
    (9 = (⟨9, 0, 1, [3]⟩ : Chunk).id ∧
      ((lookupSet [] (⟨9, 0, 1, [3]⟩ : Chunk).id = none ∧
          (⟨9, 0, 1, [3]⟩ : Chunk).total = 1) ∨
        (∃ cs0, lookupSet [] (⟨9, 0, 1, [3]⟩ : Chunk).id = some cs0 ∧
          cs0.total = (⟨9, 0, 1, [3]⟩ : Chunk).total ∧
          (storeChunk cs0 ⟨9, 0, 1, [3]⟩).received =
            (⟨9, 0, 1, [3]⟩ : Chunk).total))) ∧
    lookupSet (reap 10 5 [(9, freshSet 0 2)]) 9 = none :=
  ⟨(incomplete_never_delivered_and_reaped 0 [] ⟨9, 0, 1, [3]⟩).1 9 [3] (by decide),
   (incomplete_never_delivered_and_reaped 10 [(9, freshSet 0 2)]
      ⟨9, 0, 1, [3]⟩).2 5 9 (freshSet 0 2) (by decide) (by decide) (by decide)⟩

/-! ## TCP writer reconnect lemmas -/

/-- Redial-event count of one loop round's trace prefix. -/
theorem countP_isRedial_round (d : Nat) (ok : Bool) (l : List WriteEvent) :
    (WriteEvent.sleep d :: WriteEvent.redial ok :: l).countP isRedial =
      l.countP isRedial + 1 := by
  simp [List.countP_cons, isRedial]

/-- Resend-event count of one loop round's trace prefix. -/
theorem countP_isResend_round (d : Nat) (ok : Bool) (l : List WriteEvent) :
    (WriteEvent.sleep d :: WriteEvent.redial ok :: l).countP isResend =
      l.countP isResend := by
  simp [List.countP_cons, isResend]

/-- The redial loop makes at most `budget` redial attempts. -/
theorem redialLoop_redial_count (delay : Nat) (dials : Nat → Bool) :
    ∀ budget k, ((redialLoop delay dials budget k).1.countP isRedial) ≤ budget := by
  intro budget
  induction budget with
  | zero =>
    intro k
    simp [redialLoop]
  | succ n ih =>
    intro k
    rw [redialLoop]
    by_cases hd : dials k
    · rw [if_pos hd]
      simp [List.countP_cons, isRedial]
    · rw [if_neg hd]
      dsimp only
      rw [countP_isRedial_round]
      have := ih (k + 1)
      omega

/-- Every waiting period of the redial loop has the configured length. -/
theorem redialLoop_sleep_delay (delay : Nat) (dials : Nat → Bool) :
    ∀ budget k d, WriteEvent.sleep d ∈ (redialLoop delay dials budget k).1 →
      d = delay := by
  intro budget
  induction budget with
  | zero =>
    intro k d h
    simp [redialLoop] at h
  | succ n ih =>
    intro k d h
    rw [redialLoop] at h
    by_cases hd : dials k
    · rw [if_pos hd] at h
      simp only [List.mem_cons] at h
      rcases h with h | h | h
      · cases h
        rfl
      · cases h
      · simp at h
    · rw [if_neg hd] at h
      dsimp only at h
      simp only [List.mem_cons] at h
      rcases h with h | h | h
      · cases h
        rfl
      · cases h
      · exact ih (k + 1) d h

/-- If some redial within the budget succeeds, the call returns success
and the pending message is resent exactly once. -/
theorem redialLoop_success (delay : Nat) (dials : Nat → Bool) :
    ∀ budget k, (∃ j, j < budget ∧ dials (k + j) = true) →
      (redialLoop delay dials budget k).2 = .ok ∧
      (redialLoop delay dials budget k).1.countP isResend = 1 := by
  intro budget
  induction budget with
  | zero =>
    intro k h
    obtain ⟨j, hj, _⟩ := h
    omega
  | succ n ih =>
    intro k h
    rw [redialLoop]
    by_cases hd : dials k
    · rw [if_pos hd]
      refine ⟨rfl, ?_⟩
      simp [List.countP_cons, isResend]
    · rw [if_neg hd]
      dsimp only
      have hex : ∃ j, j < n ∧ dials (k + 1 + j) = true := by
        obtain ⟨j, hj, hdj⟩ := h
        cases j with
        | zero => exact absurd hdj (by simp [hd])
        | succ m =>
          refine ⟨m, by omega, ?_⟩
          rw [show k + 1 + m = k + (m + 1) by omega]
          exact hdj
      have hr := ih (k + 1) hex
      refine ⟨hr.1, ?_⟩
      rw [countP_isResend_round]
      exact hr.2

/-- If every redial within the budget fails, the call surfaces
ConnectionError and the message is never resent. -/
theorem redialLoop_exhausted (delay : Nat) (dials : Nat → Bool) :
    ∀ budget k, (∀ j, j < budget → dials (k + j) = false) →
      (redialLoop delay dials budget k).2 = .connectionError ∧
      (redialLoop delay dials budget k).1.countP isResend = 0 := by
  intro budget
  induction budget with
  | zero =>
    intro k _
    exact ⟨rfl, rfl⟩
  | succ n ih =>
    intro k h
    rw [redialLoop]
    have hd : dials k = false := by simpa using h 0 (by omega)
    rw [if_neg (by simp [hd])]
    dsimp only
    have hrest : ∀ j, j < n → dials (k + 1 + j) = false := by
      intro j hj
      have hh := h (j + 1) (by omega)
      rw [show k + (j + 1) = k + 1 + j by omega] at hh
      exact hh
    have hr := ih (k + 1) hrest
    refine ⟨hr.1, ?_⟩
    rw [countP_isResend_round]
    exact hr.2

/-- C5: on a write failure the TCP writer redials at most MaxReconnect
times, each attempt waiting the fixed ReconnectDelay; if some redial in
the budget succeeds the pending message is resent exactly once and the
call returns success; if all fail the call surfaces ConnectionError with
no resend; and a write whose transport reports success returns success at
once — a peer that already closed may still report the first post-close
write as successful, failure only surfacing on a later write. -/
theorem tcp_write_reconnect (maxReconnect delay : Nat) (dials : Nat → Bool) :
    (tcpWrite maxReconnect delay true dials = ([WriteEvent.write], WriteResult.ok)) ∧
    (∀ firstOk : Bool,
      (tcpWrite maxReconnect delay firstOk dials).1.countP isRedial ≤ maxReconnect) ∧
    (∀ (firstOk : Bool) (d : Nat),
      WriteEvent.sleep d ∈ (tcpWrite maxReconnect delay firstOk dials).1 →
      d = delay) ∧
    ((∃ k, k < maxReconnect ∧ dials k = true) →
      (tcpWrite maxReconnect delay false dials).2 = WriteResult.ok ∧
      (tcpWrite maxReconnect delay false dials).1.countP isResend = 1) ∧
    ((∀ k, k < maxReconnect → dials k = false) →
      (tcpWrite maxReconnect delay false dials).2 = WriteResult.connectionError ∧
      (tcpWrite maxReconnect delay false dials).1.countP isResend = 0) := by
  have hwr : ∀ l : List WriteEvent,
      (WriteEvent.write :: l).countP isRedial = l.countP isRedial := by
    intro l
    simp [List.countP_cons, isRedial]
  have hws : ∀ l : List WriteEvent,
      (WriteEvent.write :: l).countP isResend = l.countP isResend := by
    intro l
    simp [List.countP_cons, isResend]
  refine ⟨rfl, ?_, ?_, ?_, ?_⟩
  · intro firstOk
    cases firstOk
    · rw [tcpWrite, if_neg (by simp)]
      dsimp only
      rw [hwr]
      exact redialLoop_redial_count delay dials maxReconnect 0
    · rw [tcpWrite, if_pos rfl]
      simp [List.countP_cons, isRedial]
  · intro firstOk d h
    cases firstOk
    · rw [tcpWrite, if_neg (by simp)] at h
      dsimp only at h
      simp only [List.mem_cons] at h
      rcases h with h | h
      · cases h
      · exact redialLoop_sleep_delay delay dials maxReconnect 0 d h
    · rw [tcpWrite, if_pos rfl] at h
      simp at h
  · intro hex
    rw [tcpWrite, if_neg (by simp)]
    dsimp only
    have hres := redialLoop_success delay dials maxReconnect 0
      (by obtain ⟨k, hk, hdk⟩ := hex; exact ⟨k, hk, by simpa using hdk⟩)
    refine ⟨hres.1, ?_⟩
    rw [hws]
    exact hres.2
  · intro hall
    rw [tcpWrite, if_neg (by simp)]
    dsimp only
    have hres := redialLoop_exhausted delay dials maxReconnect 0
      (by intro j hj; simpa using hall j hj)
    refine ⟨hres.1, ?_⟩
    rw [hws]
    exact hres.2

/-- C5 (witness): with a two-attempt budget and the second redial
succeeding, the failed write ends in success with exactly one resend. -/
theorem tcp_write_reconnect_witness :
    (tcpWrite 2 7 false (fun k => k == 1)).2 = WriteResult.ok ∧
    (tcpWrite 2 7 false (fun k => k == 1)).1.countP isResend = 1 :=
  (tcp_write_reconnect 2 7 (fun k => k == 1)).2.2.2.1 ⟨1, by decide, by decide⟩

/-! ## Codec lemmas -/

/-- No reserved key begins with an underscore. -/
theorem underscored_not_reserved (k : String) (h : underscored k = true) :
    isReservedKey k = false := by
  by_cases h1 : k = "version"
  · subst h1
    exact absurd h (by decide)
  by_cases h2 : k = "host"
  · subst h2
    exact absurd h (by decide)
  by_cases h3 : k = "short_message"
  · subst h3
    exact absurd h (by decide)
  by_cases h4 : k = "full_message"
  · subst h4
    exact absurd h (by decide)
  by_cases h5 : k = "timestamp"
  · subst h5
    exact absurd h (by decide)
  by_cases h6 : k = "level"
  · subst h6
    exact absurd h (by decide)
  by_cases h7 : k = "facility"
  · subst h7
    exact absurd h (by decide)
  simp [isReservedKey, h1, h2, h3, h4, h5, h6, h7]

/-- Decoding entries whose keys are all unrecognized appends exactly the
underscore-prefixed ones to Extra. -/
theorem decodeGo_unrecognized :
    ∀ (l : List (String × Json)) (m : Message),
      (∀ kv ∈ l, isReservedKey kv.1 = false) →
      decodeGo l m =
        { m with extra := m.extra ++ l.filter (fun kv => underscored kv.1) } := by
  intro l
  induction l with
  | nil =>
    intro m _
    simp [decodeGo]
  | cons kv rest ih =>
    intro m h
    obtain ⟨k, v⟩ := kv
    have hk := h (k, v) (List.mem_cons_self _ _)
    simp only [isReservedKey, Bool.or_eq_false_iff, beq_eq_false_iff_ne,
      ne_eq] at hk
    obtain ⟨⟨⟨⟨⟨⟨h1, h2⟩, h3⟩, h4⟩, h5⟩, h6⟩, h7⟩ := hk
    have htail := fun kv hkv => h kv (List.mem_cons_of_mem _ hkv)
    simp only [decodeGo]
    rw [if_neg h1, if_neg h2, if_neg h3, if_neg h4, if_neg h5, if_neg h6,
      if_neg h7]
    by_cases hu : underscored k
    · rw [if_pos hu, ih _ htail, List.filter_cons, if_pos (by simp [hu])]
      rw [List.append_assoc, List.singleton_append]
    · rw [if_neg hu, ih _ htail, List.filter_cons, if_neg (by simp [hu])]

/-- Decoding the emitted reserved entries sets exactly the reserved
fields back to the message's values. -/
theorem decodeGo_reserved (m : Message) (l : List (String × Json)) :
    decodeGo (reservedAssoc m ++ l) emptyMessage =
      decodeGo l
        { emptyMessage with
          version := m.version, host := m.host, short := m.short,
          full := m.full, timeUnix := m.timeUnix, level := m.level,
          facility := m.facility } := by
  simp [reservedAssoc, decodeGo, jsonStrD, jsonNumD, jsonLevelD,
    Int.floor_intCast]

/-- C2 (counterexample): the round trip of TestExtraData's message shape
drops the non-underscore Extra key "C" and RawExtra key "woo": the
decoded Extra is empty, not the two-entry union of Extra and RawExtra. -/
theorem roundtrip_union_counterexample :
    roundtrip demoMessage =
      .ok
        { version := "1.0", host := "fake-host", short := "quick",
          full := "", timeUnix := 0, level := 6,
          facility := "udpwriter_test", extra := [], rawExtra := none } ∧
    demoMessage.extra ++ rawFields demoMessage =
      [("C", Json.num 9), ("woo", Json.str "hoo")] ∧
    ([] : List (String × Json)) ≠
      [("C", Json.num 9), ("woo", Json.str "hoo")] := by
  refine ⟨rfl, rfl, ?_⟩
  intro hcon
  exact List.noConfusion hcon

/-- C2 (amended): whenever `encode m` succeeds, decoding the result
succeeds and reproduces every reserved field of `m` exactly (numbers are
exact rationals here, so double-precision widening is the identity),
while Extra becomes the underscore-prefixed entries of the union of
Extra and RawExtra — non-underscore keys are dropped on decode, as
TestExtraData requires. -/
theorem decode_encode_roundtrip (m : Message) (j : Json)
    (h : encode m = .ok j) :
    decode j =
      .ok
        { version := m.version, host := m.host, short := m.short,
          full := m.full, timeUnix := m.timeUnix, level := m.level,
          facility := m.facility,
          extra := (m.extra ++ rawFields m).filter
            (fun kv => underscored kv.1),
          rawExtra := none } := by
  unfold encode at h
  split at h
  · exact Except.noConfusion h
  · split at h
    · exact Except.noConfusion h
    · obtain rfl : j = Json.obj (reservedAssoc m ++
          (m.extra ++ rawFields m).filter (fun kv => !(isReservedKey kv.1))) :=
        (Except.ok.inj h).symm
      have hhost : hasKey (reservedAssoc m ++
          (m.extra ++ rawFields m).filter
            (fun kv => !(isReservedKey kv.1))) "host" = true := rfl
      have hshort : hasKey (reservedAssoc m ++
          (m.extra ++ rawFields m).filter
            (fun kv => !(isReservedKey kv.1))) "short_message" = true := rfl
      have hmemE : ∀ kv ∈ (m.extra ++ rawFields m).filter
          (fun kv => !(isReservedKey kv.1)), isReservedKey kv.1 = false := by
        intro kv hkv
        rw [List.mem_filter] at hkv
        simpa using hkv.2
      have hfilter : ((m.extra ++ rawFields m).filter
            (fun kv => !(isReservedKey kv.1))).filter
            (fun kv => underscored kv.1) =
          (m.extra ++ rawFields m).filter (fun kv => underscored kv.1) := by
        rw [List.filter_filter]
        apply List.filter_congr
        intro kv _
        by_cases hu : underscored kv.1
        · simp [hu, underscored_not_reserved kv.1 hu]
        · simp [hu]
      rw [show decode (Json.obj (reservedAssoc m ++
            (m.extra ++ rawFields m).filter (fun kv => !(isReservedKey kv.1)))) =
          (if hasKey (reservedAssoc m ++ (m.extra ++ rawFields m).filter
                (fun kv => !(isReservedKey kv.1))) "host" = true ∧
              hasKey (reservedAssoc m ++ (m.extra ++ rawFields m).filter
                (fun kv => !(isReservedKey kv.1))) "short_message" = true then
            .ok (decodeGo (reservedAssoc m ++ (m.extra ++ rawFields m).filter
              (fun kv => !(isReservedKey kv.1))) emptyMessage)
          else .error .decodingError) from rfl]
      rw [if_pos ⟨hhost, hshort⟩, decodeGo_reserved m _,
        decodeGo_unrecognized _ _ hmemE, hfilter]
      rfl

/-- C2 (witness): the amended round trip applied to TestExtraData's
message shape; its non-underscore extras are dropped by the filter. -/
theorem decode_encode_roundtrip_witness :
    decode (Json.obj (reservedAssoc demoMessage ++
        (demoMessage.extra ++ rawFields demoMessage).filter
          (fun kv => !(isReservedKey kv.1)))) =
      .ok
        { version := demoMessage.version, host := demoMessage.host,
          short := demoMessage.short, full := demoMessage.full,
          timeUnix := demoMessage.timeUnix, level := demoMessage.level,
          facility := demoMessage.facility,
          extra := (demoMessage.extra ++ rawFields demoMessage).filter
            (fun kv => underscored kv.1),
          rawExtra := none } :=
  decode_encode_roundtrip demoMessage _ rfl

end Gelf
